import Mathlib

/-
Verification of the DropShadow / DropShadowEffect rendering component of the
juce_graphics module (juce_Typeface.h excerpt).

The single-channel pixel buffer is modelled as a total function `mem : ℕ → ℕ`
holding byte values; the `uint8` narrowing cast in the source is modelled by
an explicit `% 256`.  The blur routines `blurDataTriplets` and
`blurSingleChannelImage` are translated line-for-line from the source; the
drawing context (`Graphics`), images with copy-on-write buffers, rectangles
and colours are modelled after the collaborator contracts the source relies
on (spec section 6), with each spec-modelled definition marked in its doc
comment.
-/

namespace JuceShadow

/-- Averaged triplet of `blurDataTriplets`: the expression
`(uint8) ((a + b + c + 1) / 3)` of the source, i.e. natural division by 3
followed by the narrowing conversion to `uint8` (reduction mod 256). -/
def trip (a b c : ℕ) : ℕ := ((a + b + c + 1) / 3) % 256

/-- The do-while loop of `blurDataTriplets`.  State: current memory, current
pointer `p` (the source's `d` after `d += delta` advances), stride `d`, and
the running `last` value.  Each iteration saves `newLast = d[0]`, writes
`d[0] = (uint8)((last + d[0] + d[delta] + 1) / 3)`, advances the pointer and
shifts `last`.  The final component of the result is the loop's `last`
variable after the iterations. -/
def blurLoop : (ℕ → ℕ) → ℕ → ℕ → ℕ → ℕ → (ℕ → ℕ) × ℕ × ℕ
  | mem, p, _, last, 0 => (mem, p, last)
  | mem, p, d, last, n + 1 =>
      blurLoop (fun q => if q = p then trip last (mem p) (mem (p + d)) else mem q)
        (p + d) d (mem p) n

/-- Translation of `blurDataTriplets (uint8* d, int num, const int delta)`:
first write `d[0] = (uint8)((d[0] + d[delta] + 1) / 3)` and advance, then the
do-while loop (which executes `num - 2` times when `num ≥ 3`; every caller in
the source guarantees `num > 2` via the `jassert (width > 2 && height > 2)`),
then the final write `d[0] = (uint8)((last + d[0] + 1) / 3)`.  The buffer is
addressed at `p + k * d` for the `k`-th element of the line. -/
def blurDataTriplets (mem : ℕ → ℕ) (p num d : ℕ) : ℕ → ℕ :=
  let mem1 : ℕ → ℕ := fun q => if q = p then trip (mem p) (mem (p + d)) 0 else mem q
  let res := blurLoop mem1 (p + d) d (mem p) (num - 2)
  fun q => if q = res.2.1 then trip res.2.2 (res.1 res.2.1) 0 else res.1 q

/-- Repeated application of `blurDataTriplets` to one line: the inner
`for (int i = repetitions; --i >= 0;)` loop of `blurSingleChannelImage`. -/
def blurLineReps (mem : ℕ → ℕ) (p num d : ℕ) : ℕ → ℕ → ℕ
  | 0 => mem
  | r + 1 => blurDataTriplets (blurLineReps mem p num d r) p num d

/-- The row loop of `blurSingleChannelImage`: rows `0 … y-1`, each blurred
`reps` times with stride 1 starting at `lineStride * y`. -/
def blurRowsUpTo (mem : ℕ → ℕ) (w ls reps : ℕ) : ℕ → ℕ → ℕ
  | 0 => mem
  | y + 1 => blurLineReps (blurRowsUpTo mem w ls reps y) (ls * y) w 1 reps

/-- The column loop of `blurSingleChannelImage`: columns `0 … x-1`, each
blurred `reps` times with stride `lineStride` starting at `x`. -/
def blurColsUpTo (mem : ℕ → ℕ) (hgt ls reps : ℕ) : ℕ → ℕ → ℕ
  | 0 => mem
  | x + 1 => blurLineReps (blurColsUpTo mem hgt ls reps x) x hgt ls reps

/-- Translation of
`blurSingleChannelImage (uint8* data, int width, int height, int lineStride, int repetitions)`:
every row blurred `repetitions` times, then every column blurred
`repetitions` times. -/
def blurSingleChannelImage (mem : ℕ → ℕ) (w hgt ls reps : ℕ) : ℕ → ℕ :=
  blurColsUpTo (blurRowsUpTo mem w ls reps hgt) hgt ls reps w

/-- Pixel buffer of an image: dimensions, line stride and byte data, the
`Image::BitmapData` view used by the source. -/
structure Buffer where
  width : ℕ
  height : ℕ
  lineStride : ℕ
  data : ℕ → ℕ

/-- Translation of the `Image&` overload of `blurSingleChannelImage`: blurs
the bitmap data in place with `repetitions = 2 * radius`. -/
def blurImageBuffer (b : Buffer) (radius : ℕ) : Buffer :=
  { b with data := blurSingleChannelImage b.data b.width b.height b.lineStride (2 * radius) }

/-- Rounded 3-tap average without the narrowing cast, as the spec words it:
a 3-tap running average with rounding. -/
def boxTap (a b c : ℕ) : ℕ := (a + b + c + 1) / 3

/-- One 3-tap box-blur pass over the line `p, p+d, …, p+(num-1)*d`, written
pointwise from the spec's description: each element becomes the rounded
average of itself and its two neighbours on the line, a missing neighbour
beyond either end contributing zero while the divisor stays 3.  Cells off
the line are untouched. -/
def boxBlurPass (mem : ℕ → ℕ) (p num d : ℕ) : ℕ → ℕ := fun q =>
  if p ≤ q ∧ (q - p) % d = 0 ∧ (q - p) / d < num then
    boxTap (if (q - p) / d = 0 then 0 else mem (p + ((q - p) / d - 1) * d))
      (mem q)
      (if (q - p) / d = num - 1 then 0 else mem (p + ((q - p) / d + 1) * d))
  else mem q

theorem blurLoop_zero (mem : ℕ → ℕ) (p d last : ℕ) :
    blurLoop mem p d last 0 = (mem, p, last) := rfl

theorem blurLoop_succ (mem : ℕ → ℕ) (p d last n : ℕ) :
    blurLoop mem p d last (n + 1) =
      blurLoop (fun q => if q = p then trip last (mem p) (mem (p + d)) else mem q)
        (p + d) d (mem p) n := rfl

theorem blurLoop_ptr (mem : ℕ → ℕ) (p d last n : ℕ) :
    (blurLoop mem p d last n).2.1 = p + n * d := by
  induction n generalizing mem p last with
  | zero => simp [blurLoop]
  | succ m ih =>
      rw [blurLoop_succ, ih]
      ring

theorem blurLoop_lastVal (mem : ℕ → ℕ) (p d last n : ℕ) (hd : 0 < d) (hn : 0 < n) :
    (blurLoop mem p d last n).2.2 = mem (p + (n - 1) * d) := by
  induction n generalizing mem p last with
  | zero => omega
  | succ m ih =>
      rw [blurLoop_succ]
      rcases Nat.eq_zero_or_pos m with hm | hm
      · subst hm
        simp [blurLoop]
      · rw [ih _ _ _ hm]
        have hne : p + d + (m - 1) * d ≠ p := by
          have : 0 < d := hd
          omega
        rw [if_neg hne]
        congr 1
        rcases m with _ | k
        · omega
        · simp only [Nat.add_sub_cancel]
          ring

theorem blurLoop_frame (mem : ℕ → ℕ) (p d last n q : ℕ)
    (hq : ∀ k, k < n → q ≠ p + k * d) :
    (blurLoop mem p d last n).1 q = mem q := by
  induction n generalizing mem p last with
  | zero => rfl
  | succ m ih =>
      rw [blurLoop_succ, ih]
      · have hq0 : q ≠ p := by
          have := hq 0 (Nat.succ_pos m)
          simpa using this
        rw [if_neg hq0]
      · intro k hk
        have := hq (k + 1) (by omega)
        intro hcon
        exact this (by rw [hcon]; ring)

theorem blurLoop_at (mem : ℕ → ℕ) (p d last n k : ℕ) (hd : 0 < d) (hk : k < n) :
    (blurLoop mem p d last n).1 (p + k * d) =
      trip (if k = 0 then last else mem (p + (k - 1) * d))
        (mem (p + k * d)) (mem (p + (k + 1) * d)) := by
  induction n generalizing mem p last k with
  | zero => omega
  | succ m ih =>
      rw [blurLoop_succ]
      rcases k with _ | j
      · rw [blurLoop_frame]
        · simp [trip]
        · intro j hj
          omega
      · have hj : j < m := by omega
        have harg : p + (j + 1) * d = (p + d) + j * d := by ring
        rw [harg, ih _ _ _ _ hj]
        have h1 : p + d + j * d ≠ p := by omega
        have h2 : p + d + (j + 1) * d ≠ p := by omega
        have hne : j + 1 ≠ 0 := by omega
        rw [if_neg h1, if_neg h2, if_neg hne]
        simp only [Nat.add_sub_cancel]
        rcases j with _ | i
        · rw [if_pos rfl]
          have e1 : p + 0 * d = p := by ring
          have e2 : p + d + 0 * d = p + (0 + 1) * d := by ring
          have e3 : p + d + (0 + 1) * d = p + (0 + 1 + 1) * d := by ring
          rw [e1, e2, e3]
        · have hne2 : i + 1 ≠ 0 := by omega
          rw [if_neg hne2]
          have h3 : p + d + (i + 1 - 1) * d ≠ p := by
            simp only [Nat.add_sub_cancel]
            omega
          rw [if_neg h3]
          have e1 : p + d + (i + 1 - 1) * d = p + (i + 1) * d := by
            simp only [Nat.add_sub_cancel]
            ring
          have e2 : p + d + (i + 1) * d = p + (i + 1 + 1) * d := by ring
          have e3 : p + d + (i + 1 + 1) * d = p + (i + 1 + 1 + 1) * d := by ring
          rw [e1, e2, e3]

theorem trip_le (a b c : ℕ) : trip a b c ≤ 255 := by
  unfold trip
  omega

theorem blurLoop_le (mem : ℕ → ℕ) (p d last n : ℕ) (hmem : ∀ q, mem q ≤ 255) :
    ∀ q, (blurLoop mem p d last n).1 q ≤ 255 := by
  induction n generalizing mem p last with
  | zero => exact hmem
  | succ m ih =>
      intro q
      rw [blurLoop_succ]
      apply ih
      intro q2
      by_cases h : q2 = p
      · rw [if_pos h]
        exact trip_le _ _ _
      · rw [if_neg h]
        exact hmem q2

theorem blurDataTriplets_le (mem : ℕ → ℕ) (p num d : ℕ) (hmem : ∀ q, mem q ≤ 255) :
    ∀ q, blurDataTriplets mem p num d q ≤ 255 := by
  intro q
  simp only [blurDataTriplets]
  split
  · exact trip_le _ _ _
  · apply blurLoop_le
    intro q2
    by_cases h : q2 = p
    · rw [if_pos h]
      exact trip_le _ _ _
    · rw [if_neg h]
      exact hmem q2

theorem blurDataTriplets_frame (mem : ℕ → ℕ) (p num d q : ℕ) (hd : 0 < d) (hnum : 3 ≤ num)
    (hq : ∀ k, k < num → q ≠ p + k * d) :
    blurDataTriplets mem p num d q = mem q := by
  obtain ⟨m, rfl⟩ : ∃ m, num = m + 3 := ⟨num - 3, by omega⟩
  have hsub : m + 3 - 2 = m + 1 := by omega
  simp only [blurDataTriplets, hsub]
  rw [blurLoop_ptr]
  have hq1 : q ≠ p + d + (m + 1) * d := by
    intro hcon
    exact hq (m + 2) (by omega) (by rw [hcon]; ring)
  rw [if_neg hq1]
  rw [blurLoop_frame]
  · have hq0 : q ≠ p := by
      have := hq 0 (by omega)
      simpa using this
    simp [hq0]
  · intro k hk hcon
    exact hq (k + 1) (by omega) (by rw [hcon]; ring)

theorem blurDataTriplets_at_zero (mem : ℕ → ℕ) (p num d : ℕ) (hd : 0 < d) (hnum : 3 ≤ num) :
    blurDataTriplets mem p num d p = trip (mem p) (mem (p + d)) 0 := by
  obtain ⟨m, rfl⟩ : ∃ m, num = m + 3 := ⟨num - 3, by omega⟩
  have hsub : m + 3 - 2 = m + 1 := by omega
  simp only [blurDataTriplets, hsub]
  rw [blurLoop_ptr]
  have hne : p ≠ p + d + (m + 1) * d := by omega
  rw [if_neg hne]
  rw [blurLoop_frame]
  · simp
  · intro k hk
    omega

theorem blurDataTriplets_at_last (mem : ℕ → ℕ) (p num d : ℕ) (hd : 0 < d) (hnum : 3 ≤ num) :
    blurDataTriplets mem p num d (p + (num - 1) * d) =
      trip (mem (p + (num - 2) * d)) (mem (p + (num - 1) * d)) 0 := by
  obtain ⟨m, rfl⟩ : ∃ m, num = m + 3 := ⟨num - 3, by omega⟩
  have h1 : m + 3 - 1 = m + 2 := by omega
  have h2 : m + 3 - 2 = m + 1 := by omega
  simp only [blurDataTriplets, h1, h2]
  rw [blurLoop_ptr]
  have he : p + (m + 2) * d = p + d + (m + 1) * d := by ring
  rw [he, if_pos rfl]
  rw [blurLoop_lastVal _ _ _ _ _ hd (by omega)]
  rw [blurLoop_frame]
  · simp only [Nat.add_sub_cancel]
    have hne1 : p + d + m * d ≠ p := by omega
    have hne2 : p + d + (m + 1) * d ≠ p := by omega
    rw [if_neg hne1, if_neg hne2]
    have e1 : p + d + m * d = p + (m + 1) * d := by ring
    rw [e1]
  · intro k hk hcon
    have h3 : k * d = (m + 1) * d := by omega
    have := Nat.eq_of_mul_eq_mul_right hd h3
    omega

theorem blurDataTriplets_at_mid (mem : ℕ → ℕ) (p num d k : ℕ) (hd : 0 < d) (hnum : 3 ≤ num)
    (hk1 : 1 ≤ k) (hk2 : k ≤ num - 2) :
    blurDataTriplets mem p num d (p + k * d) =
      trip (mem (p + (k - 1) * d)) (mem (p + k * d)) (mem (p + (k + 1) * d)) := by
  obtain ⟨m, rfl⟩ : ∃ m, num = m + 3 := ⟨num - 3, by omega⟩
  obtain ⟨j, rfl⟩ : ∃ j, k = j + 1 := ⟨k - 1, by omega⟩
  have h2 : m + 3 - 2 = m + 1 := by omega
  simp only [blurDataTriplets, h2]
  rw [blurLoop_ptr]
  have hne : p + (j + 1) * d ≠ p + d + (m + 1) * d := by
    intro hcon
    have h3 : (j + 1) * d = (m + 2) * d := by
      have he : p + d + (m + 1) * d = p + (m + 2) * d := by ring
      omega
    have := Nat.eq_of_mul_eq_mul_right hd h3
    omega
  rw [if_neg hne]
  have harg : p + (j + 1) * d = p + d + j * d := by ring
  rw [harg, blurLoop_at _ _ _ _ _ _ hd (show j < m + 1 by omega)]
  have hm1 : p + d + j * d ≠ p := by omega
  have hm2 : p + d + (j + 1) * d ≠ p := by omega
  rw [if_neg hm1, if_neg hm2]
  simp only [Nat.add_sub_cancel]
  have e3 : p + d + (j + 1) * d = p + (j + 1 + 1) * d := by ring
  rw [e3]
  rcases j with _ | i
  · rw [if_pos rfl]
    have e1 : p + 0 * d = p := by ring
    rw [e1]
  · have hne2 : i + 1 ≠ 0 := by omega
    rw [if_neg hne2]
    have h3 : p + d + (i + 1 - 1) * d ≠ p := by
      simp only [Nat.add_sub_cancel]
      omega
    rw [if_neg h3]
    have e1 : p + d + (i + 1 - 1) * d = p + (i + 1) * d := by
      simp only [Nat.add_sub_cancel]
      ring
    rw [e1]

theorem trip_eq_boxTap (a b c : ℕ) (ha : a ≤ 255) (hb : b ≤ 255) (hc : c ≤ 255) :
    trip a b c = boxTap a b c := by
  unfold trip boxTap
  omega

theorem offLine_of_not_cond (p num d q : ℕ) (hd : 0 < d)
    (h : ¬(p ≤ q ∧ (q - p) % d = 0 ∧ (q - p) / d < num)) :
    ∀ k, k < num → q ≠ p + k * d := by
  intro k hk hcon
  apply h
  subst hcon
  refine ⟨by omega, ?_, ?_⟩
  · simp [Nat.add_sub_cancel_left, Nat.mul_mod_left]
  · simpa [Nat.add_sub_cancel_left, Nat.mul_div_cancel _ hd] using hk

theorem blurDataTriplets_eq_boxBlurPass (mem : ℕ → ℕ) (p num d : ℕ)
    (hd : 0 < d) (hnum : 3 ≤ num) (hmem : ∀ q, mem q ≤ 255) :
    blurDataTriplets mem p num d = boxBlurPass mem p num d := by
  funext q
  by_cases hline : p ≤ q ∧ (q - p) % d = 0 ∧ (q - p) / d < num
  · obtain ⟨hpq, hmod, hdiv⟩ := hline
    obtain ⟨k, hklt, rfl⟩ : ∃ k, k < num ∧ q = p + k * d := by
      refine ⟨(q - p) / d, hdiv, ?_⟩
      have h1 : (q - p) / d * d = q - p :=
        Nat.div_mul_cancel (Nat.dvd_of_mod_eq_zero hmod)
      omega
    have hA : p ≤ p + k * d := by omega
    have hB : (p + k * d - p) % d = 0 := by
      simp [Nat.add_sub_cancel_left, Nat.mul_mod_left]
    have hC : (p + k * d - p) / d = k := by
      simp [Nat.add_sub_cancel_left, Nat.mul_div_cancel _ hd]
    simp only [boxBlurPass, hC]
    rw [if_pos (And.intro hA (And.intro hB hklt))]
    by_cases hk0 : k = 0
    · subst hk0
      have e0 : p + 0 * d = p := by ring
      have e1 : p + (0 + 1) * d = p + d := by ring
      rw [e0, e1, blurDataTriplets_at_zero _ _ _ _ hd hnum]
      rw [if_pos rfl, if_neg (show ¬((0 : ℕ) = num - 1) by omega)]
      have h1 := hmem p
      have h2 := hmem (p + d)
      unfold trip boxTap
      omega
    · by_cases hklast : k = num - 1
      · subst hklast
        rw [blurDataTriplets_at_last _ _ _ _ hd hnum]
        rw [if_neg (show ¬(num - 1 = 0) by omega), if_pos rfl]
        have e1 : num - 1 - 1 = num - 2 := by omega
        rw [e1]
        exact trip_eq_boxTap _ _ _ (hmem _) (hmem _) (by omega)
      · rw [blurDataTriplets_at_mid _ _ _ _ _ hd hnum (by omega) (by omega)]
        rw [if_neg hk0, if_neg hklast]
        exact trip_eq_boxTap _ _ _ (hmem _) (hmem _) (hmem _)
  · rw [blurDataTriplets_frame _ _ _ _ _ hd hnum (offLine_of_not_cond _ _ _ _ hd hline)]
    simp only [boxBlurPass, if_neg hline]

theorem blurDataTriplets_agree (mem mem2 : ℕ → ℕ) (p num d bound : ℕ)
    (hd : 0 < d) (hnum : 3 ≤ num)
    (hline : ∀ k, k < num → p + k * d < bound)
    (hag : ∀ q, q < bound → mem q = mem2 q) :
    ∀ q, q < bound → blurDataTriplets mem p num d q = blurDataTriplets mem2 p num d q := by
  intro q hq
  by_cases hl : p ≤ q ∧ (q - p) % d = 0 ∧ (q - p) / d < num
  · obtain ⟨hpq, hmod, hdiv⟩ := hl
    obtain ⟨k, hklt, rfl⟩ : ∃ k, k < num ∧ q = p + k * d := by
      refine ⟨(q - p) / d, hdiv, ?_⟩
      have h1 : (q - p) / d * d = q - p :=
        Nat.div_mul_cancel (Nat.dvd_of_mod_eq_zero hmod)
      omega
    by_cases hk0 : k = 0
    · subst hk0
      have e0 : p + 0 * d = p := by ring
      rw [e0, blurDataTriplets_at_zero _ _ _ _ hd hnum,
        blurDataTriplets_at_zero _ _ _ _ hd hnum]
      have hp : p < bound := by
        have := hline 0 (by omega)
        simpa using this
      have hpd : p + d < bound := by
        have := hline 1 (by omega)
        simpa using this
      rw [hag p hp, hag (p + d) hpd]
    · by_cases hklast : k = num - 1
      · subst hklast
        rw [blurDataTriplets_at_last _ _ _ _ hd hnum,
          blurDataTriplets_at_last _ _ _ _ hd hnum]
        rw [hag _ (hline (num - 2) (by omega)), hag _ (hline (num - 1) (by omega))]
      · rw [blurDataTriplets_at_mid _ _ _ _ _ hd hnum (by omega) (by omega),
          blurDataTriplets_at_mid _ _ _ _ _ hd hnum (by omega) (by omega)]
        rw [hag _ (hline (k - 1) (by omega)), hag _ (hline k hklt),
          hag _ (hline (k + 1) (by omega))]
  · rw [blurDataTriplets_frame _ _ _ _ _ hd hnum (offLine_of_not_cond _ _ _ _ hd hl),
      blurDataTriplets_frame _ _ _ _ _ hd hnum (offLine_of_not_cond _ _ _ _ hd hl),
      hag q hq]

/-- The spec-level row phase: every row receives `reps` passes of the
pointwise 3-tap box-blur `boxBlurPass`. -/
def specBlurRowsUpTo (mem : ℕ → ℕ) (w ls reps : ℕ) : ℕ → ℕ → ℕ
  | 0 => mem
  | y + 1 => (fun m => boxBlurPass m (ls * y) w 1)^[reps] (specBlurRowsUpTo mem w ls reps y)

/-- The spec-level column phase: every column receives `reps` passes of the
pointwise 3-tap box-blur `boxBlurPass`. -/
def specBlurColsUpTo (mem : ℕ → ℕ) (hgt ls reps : ℕ) : ℕ → ℕ → ℕ
  | 0 => mem
  | x + 1 => (fun m => boxBlurPass m x hgt ls)^[reps] (specBlurColsUpTo mem hgt ls reps x)

/-- The spec's description of the image blur: `reps` 3-tap box-blur passes
along every row, followed by `reps` such passes along every column. -/
def specBlurImage (mem : ℕ → ℕ) (w hgt ls reps : ℕ) : ℕ → ℕ :=
  specBlurColsUpTo (specBlurRowsUpTo mem w ls reps hgt) hgt ls reps w

theorem blurLineReps_le (mem : ℕ → ℕ) (p num d r : ℕ) (hmem : ∀ q, mem q ≤ 255) :
    ∀ q, blurLineReps mem p num d r q ≤ 255 := by
  induction r with
  | zero => exact hmem
  | succ s ih => exact blurDataTriplets_le _ _ _ _ ih

theorem blurLineReps_eq_iter (mem : ℕ → ℕ) (p num d r : ℕ)
    (hd : 0 < d) (hnum : 3 ≤ num) (hmem : ∀ q, mem q ≤ 255) :
    blurLineReps mem p num d r = (fun m => boxBlurPass m p num d)^[r] mem := by
  induction r with
  | zero => rfl
  | succ s ih =>
      show blurDataTriplets (blurLineReps mem p num d s) p num d = _
      rw [Function.iterate_succ_apply', ← ih,
        blurDataTriplets_eq_boxBlurPass _ _ _ _ hd hnum (blurLineReps_le _ _ _ _ _ hmem)]

theorem blurLineReps_frame (mem : ℕ → ℕ) (p num d r q : ℕ)
    (hd : 0 < d) (hnum : 3 ≤ num) (hq : ∀ k, k < num → q ≠ p + k * d) :
    blurLineReps mem p num d r q = mem q := by
  induction r with
  | zero => rfl
  | succ s ih =>
      show blurDataTriplets (blurLineReps mem p num d s) p num d q = _
      rw [blurDataTriplets_frame _ _ _ _ _ hd hnum hq, ih]

theorem blurLineReps_agree (mem mem2 : ℕ → ℕ) (p num d r bound : ℕ)
    (hd : 0 < d) (hnum : 3 ≤ num)
    (hline : ∀ k, k < num → p + k * d < bound)
    (hag : ∀ q, q < bound → mem q = mem2 q) :
    ∀ q, q < bound → blurLineReps mem p num d r q = blurLineReps mem2 p num d r q := by
  induction r with
  | zero => exact hag
  | succ s ih =>
      exact blurDataTriplets_agree _ _ _ _ _ _ hd hnum hline ih

theorem blurRowsUpTo_le (mem : ℕ → ℕ) (w ls reps y : ℕ) (hmem : ∀ q, mem q ≤ 255) :
    ∀ q, blurRowsUpTo mem w ls reps y q ≤ 255 := by
  induction y with
  | zero => exact hmem
  | succ z ih => exact blurLineReps_le _ _ _ _ _ ih

theorem blurColsUpTo_le (mem : ℕ → ℕ) (hgt ls reps x : ℕ) (hmem : ∀ q, mem q ≤ 255) :
    ∀ q, blurColsUpTo mem hgt ls reps x q ≤ 255 := by
  induction x with
  | zero => exact hmem
  | succ z ih => exact blurLineReps_le _ _ _ _ _ ih

theorem blurRowsUpTo_eq_spec (mem : ℕ → ℕ) (w ls reps y : ℕ)
    (h3w : 3 ≤ w) (hmem : ∀ q, mem q ≤ 255) :
    blurRowsUpTo mem w ls reps y = specBlurRowsUpTo mem w ls reps y := by
  induction y with
  | zero => rfl
  | succ z ih =>
      show blurLineReps (blurRowsUpTo mem w ls reps z) (ls * z) w 1 reps = _
      rw [blurLineReps_eq_iter _ _ _ _ _ (by omega) h3w (blurRowsUpTo_le _ _ _ _ _ hmem), ih]
      rfl

theorem blurColsUpTo_eq_spec (mem : ℕ → ℕ) (hgt ls reps x : ℕ)
    (h3h : 3 ≤ hgt) (hls : 0 < ls) (hmem : ∀ q, mem q ≤ 255) :
    blurColsUpTo mem hgt ls reps x = specBlurColsUpTo mem hgt ls reps x := by
  induction x with
  | zero => rfl
  | succ z ih =>
      show blurLineReps (blurColsUpTo mem hgt ls reps z) z hgt ls reps = _
      rw [blurLineReps_eq_iter _ _ _ _ _ hls h3h (blurColsUpTo_le _ _ _ _ _ hmem), ih]
      rfl

theorem blurSingleChannelImage_eq_spec (mem : ℕ → ℕ) (w hgt ls reps : ℕ)
    (h3w : 3 ≤ w) (h3h : 3 ≤ hgt) (hls : 0 < ls) (hmem : ∀ q, mem q ≤ 255) :
    blurSingleChannelImage mem w hgt ls reps = specBlurImage mem w hgt ls reps := by
  unfold blurSingleChannelImage specBlurImage
  rw [blurRowsUpTo_eq_spec _ _ _ _ _ h3w hmem] at *
  rw [blurColsUpTo_eq_spec _ _ _ _ _ h3h hls]
  rw [← blurRowsUpTo_eq_spec _ _ _ _ _ h3w hmem]
  exact blurRowsUpTo_le _ _ _ _ _ hmem

theorem blurRowsUpTo_frame (mem : ℕ → ℕ) (w ls reps y hgt q : ℕ)
    (h3w : 3 ≤ w) (hwls : w ≤ ls) (hy : y ≤ hgt) (hq : ls * hgt ≤ q) :
    blurRowsUpTo mem w ls reps y q = mem q := by
  induction y with
  | zero => rfl
  | succ z ih =>
      show blurLineReps (blurRowsUpTo mem w ls reps z) (ls * z) w 1 reps q = _
      rw [blurLineReps_frame _ _ _ _ _ _ (by omega) h3w ?hoff, ih (by omega)]
      case hoff =>
        intro k hk hcon
        have e : ls * (z + 1) = ls * z + ls := by ring
        have h2 : ls * (z + 1) ≤ ls * hgt := Nat.mul_le_mul_left ls (by omega)
        omega

theorem blurColsUpTo_frame (mem : ℕ → ℕ) (hgt ls reps x w q : ℕ)
    (h3h : 3 ≤ hgt) (hwls : w ≤ ls) (hx : x ≤ w) (hq : ls * hgt ≤ q) :
    blurColsUpTo mem hgt ls reps x q = mem q := by
  induction x with
  | zero => rfl
  | succ z ih =>
      show blurLineReps (blurColsUpTo mem hgt ls reps z) z hgt ls reps q = _
      rw [blurLineReps_frame _ _ _ _ _ _ ?hls h3h ?hoff, ih (by omega)]
      case hls => omega
      case hoff =>
        intro k hk hcon
        have e : (k + 1) * ls = k * ls + ls := by ring
        have h2 : (k + 1) * ls ≤ hgt * ls := Nat.mul_le_mul_right ls (by omega)
        have e2 : hgt * ls = ls * hgt := by ring
        omega

theorem blurRowsUpTo_agree (mem mem2 : ℕ → ℕ) (w ls reps y hgt : ℕ)
    (h3w : 3 ≤ w) (hwls : w ≤ ls) (hy : y ≤ hgt)
    (hag : ∀ q, q < ls * hgt → mem q = mem2 q) :
    ∀ q, q < ls * hgt → blurRowsUpTo mem w ls reps y q = blurRowsUpTo mem2 w ls reps y q := by
  induction y with
  | zero => exact hag
  | succ z ih =>
      refine blurLineReps_agree _ _ _ _ _ _ _ (by omega) h3w ?_ (ih (by omega))
      intro k hk
      have e : ls * (z + 1) = ls * z + ls := by ring
      have h2 : ls * (z + 1) ≤ ls * hgt := Nat.mul_le_mul_left ls (by omega)
      omega

theorem blurColsUpTo_agree (mem mem2 : ℕ → ℕ) (hgt ls reps x w : ℕ)
    (h3h : 3 ≤ hgt) (hwls : w ≤ ls) (hx : x ≤ w)
    (hag : ∀ q, q < ls * hgt → mem q = mem2 q) :
    ∀ q, q < ls * hgt → blurColsUpTo mem hgt ls reps x q = blurColsUpTo mem2 hgt ls reps x q := by
  induction x with
  | zero => exact hag
  | succ z ih =>
      refine blurLineReps_agree _ _ _ _ _ _ _ (by omega) h3h ?_ (ih (by omega))
      intro k hk
      have e : (k + 1) * ls = k * ls + ls := by ring
      have h2 : (k + 1) * ls ≤ hgt * ls := Nat.mul_le_mul_right ls (by omega)
      have e2 : hgt * ls = ls * hgt := by ring
      omega

theorem blurSingleChannelImage_frame (mem : ℕ → ℕ) (w hgt ls reps q : ℕ)
    (h3w : 3 ≤ w) (h3h : 3 ≤ hgt) (hwls : w ≤ ls) (hq : ls * hgt ≤ q) :
    blurSingleChannelImage mem w hgt ls reps q = mem q := by
  unfold blurSingleChannelImage
  rw [blurColsUpTo_frame _ _ _ _ _ _ _ h3h hwls (le_refl w) hq,
    blurRowsUpTo_frame _ _ _ _ _ _ _ h3w hwls (le_refl hgt) hq]

theorem blurSingleChannelImage_agree (mem mem2 : ℕ → ℕ) (w hgt ls reps : ℕ)
    (h3w : 3 ≤ w) (h3h : 3 ≤ hgt) (hwls : w ≤ ls) :
    (∀ q, q < ls * hgt → mem q = mem2 q) →
    ∀ q, q < ls * hgt →
      blurSingleChannelImage mem w hgt ls reps q = blurSingleChannelImage mem2 w hgt ls reps q := by
  intro hag
  unfold blurSingleChannelImage
  exact blurColsUpTo_agree _ _ _ _ _ _ _ h3h hwls (le_refl w)
    (blurRowsUpTo_agree _ _ _ _ _ _ _ h3w hwls (le_refl hgt) hag)

/-- Claim C1: for every radius > 0 the blur used by `drawForImage` and
`drawForPath` (the `Image` overload `blurImageBuffer` of
`blurSingleChannelImage`) consists of exactly `2 * radius` passes of the
3-tap running average over every row, followed by exactly `2 * radius`
passes of the same 3-tap average over every column: it agrees with
`specBlurImage`, whose two phases are literally `2 * radius`-fold iterates
of the single 3-tap pass `boxBlurPass`.  The radius enters only as the pass
count, never as a kernel width. -/
theorem blur_is_two_radius_box_passes (b : Buffer) (radius : ℕ)
    (h2w : 2 < b.width) (h2h : 2 < b.height) (hls : 0 < b.lineStride) (hr : 0 < radius)
    (hdata : ∀ q, b.data q ≤ 255) :
    (blurImageBuffer b radius).data
      = specBlurImage b.data b.width b.height b.lineStride (2 * radius) :=
  blurSingleChannelImage_eq_spec _ _ _ _ _ (by omega) (by omega) hls hdata

/-- Witness for C1 at a concrete 3×3 all-zero buffer with radius 1. -/
theorem blur_is_two_radius_box_passes_witness :
    (2 < 3 ∧ 0 < 1) ∧
      (blurImageBuffer (Buffer.mk 3 3 3 (fun _ => 0)) 1).data
        = specBlurImage (fun _ => 0) 3 3 3 (2 * 1) :=
  ⟨⟨by omega, by omega⟩,
    blur_is_two_radius_box_passes (Buffer.mk 3 3 3 (fun _ => 0)) 1
      (by decide) (by decide) (by decide) (by decide) (fun q => Nat.zero_le 255)⟩

/-- Claim C10: one pass of `blurDataTriplets` over a line of length `n ≥ 3`
computes, from the pre-pass values, the rounded 3-tap average at every
interior index, and at the two ends the missing neighbour beyond the
boundary is treated as zero while the divisor stays 3. -/
theorem blurDataTriplets_single_pass_formula (f : ℕ → ℕ) (n : ℕ)
    (hn : 3 ≤ n) (hb : ∀ i, f i ≤ 255) :
    blurDataTriplets f 0 n 1 0 = (f 0 + f 1 + 1) / 3 ∧
    (∀ i, 0 < i → i + 1 < n →
      blurDataTriplets f 0 n 1 i = (f (i - 1) + f i + f (i + 1) + 1) / 3) ∧
    blurDataTriplets f 0 n 1 (n - 1) = (f (n - 2) + f (n - 1) + 1) / 3 := by
  refine ⟨?_, ?_, ?_⟩
  · have h := blurDataTriplets_at_zero f 0 n 1 (by omega) hn
    simp only [Nat.zero_add, Nat.mul_one] at h
    rw [h]
    have h1 := hb 0
    have h2 := hb 1
    unfold trip
    omega
  · intro i hi hi1
    have h := blurDataTriplets_at_mid f 0 n 1 i (by omega) hn (by omega) (by omega)
    simp only [Nat.zero_add, Nat.mul_one] at h
    rw [h]
    have h1 := hb (i - 1)
    have h2 := hb i
    have h3 := hb (i + 1)
    unfold trip
    omega
  · have h := blurDataTriplets_at_last f 0 n 1 (by omega) hn
    simp only [Nat.zero_add, Nat.mul_one] at h
    rw [h]
    have h1 := hb (n - 2)
    have h2 := hb (n - 1)
    unfold trip
    omega

/-- Witness for C10 at a concrete constant line of length 4. -/
theorem blurDataTriplets_single_pass_formula_witness :
    (3 ≤ 4 ∧ (fun _ : ℕ => 90) 0 ≤ 255) ∧
      (blurDataTriplets (fun _ => 90) 0 4 1 0 = ((90 : ℕ) + 90 + 1) / 3 ∧
        (∀ i, 0 < i → i + 1 < 4 →
          blurDataTriplets (fun _ => 90) 0 4 1 i = ((90 : ℕ) + 90 + 90 + 1) / 3) ∧
        blurDataTriplets (fun _ => 90) 0 4 1 (4 - 1) = ((90 : ℕ) + 90 + 1) / 3) :=
  ⟨⟨by omega, by norm_num⟩,
    blurDataTriplets_single_pass_formula (fun _ => 90) 4 (by omega) (fun i => by norm_num)⟩

/-- An integer point, the `Point<int>` collaborator. -/
structure PointI where
  x : ℤ
  y : ℤ
deriving DecidableEq

/-- An integer rectangle, the `Rectangle<int>` collaborator (position and
size). -/
structure RectI where
  x : ℤ
  y : ℤ
  w : ℤ
  h : ℤ
deriving DecidableEq

/-- A rational rectangle standing for `Rectangle<float>`.  All coordinates
produced by the shadow code are obtained from integers by halving, adding
and subtracting, which is exact in single precision for the sizes at hand,
so ℚ is a faithful model. -/
structure RectQ where
  x : ℚ
  y : ℚ
  w : ℚ
  h : ℚ
deriving DecidableEq

/-- Modelled from the spec: translation of a rectangle by a point
(`operator+` of `Rectangle`). -/
def RectI.translate (r : RectI) (p : PointI) : RectI :=
  ⟨r.x + p.x, r.y + p.y, r.w, r.h⟩

/-- Modelled from the spec: `Rectangle<int>::expanded`, growing the
rectangle by `d` on each of the four sides. -/
def RectI.expanded (r : RectI) (d : ℤ) : RectI :=
  ⟨r.x - d, r.y - d, r.w + 2 * d, r.h + 2 * d⟩

/-- Modelled from the spec: `Rectangle<int>::getIntersection`, the overlap
of two rectangles, or the zero rectangle when they do not meet. -/
def RectI.getIntersection (r s : RectI) : RectI :=
  let nx := max r.x s.x
  let ny := max r.y s.y
  let nw := min (r.x + r.w) (s.x + s.w) - nx
  let nh := min (r.y + r.h) (s.y + s.h) - ny
  if 0 ≤ nw ∧ 0 ≤ nh then ⟨nx, ny, nw, nh⟩ else ⟨0, 0, 0, 0⟩

/-- Modelled from the spec: `Rectangle<int>::toFloat`. -/
def RectI.toFloat (r : RectI) : RectQ := ⟨(r.x : ℚ), (r.y : ℚ), (r.w : ℚ), (r.h : ℚ)⟩

/-- Modelled from the spec: `Rectangle<float>::reduced`, shrinking by `d`
on each side. -/
def RectQ.reduced (r : RectQ) (d : ℚ) : RectQ :=
  ⟨r.x + d, r.y + d, r.w - 2 * d, r.h - 2 * d⟩

/-- Modelled from the spec: `Rectangle<float>::expanded`. -/
def RectQ.expanded (r : RectQ) (d : ℚ) : RectQ :=
  ⟨r.x - d, r.y - d, r.w + 2 * d, r.h + 2 * d⟩

/-- Modelled from the spec: translation of a float rectangle by a float
point (`operator+`). -/
def RectQ.translateQ (r : RectQ) (px py : ℚ) : RectQ :=
  ⟨r.x + px, r.y + py, r.w, r.h⟩

/-- Modelled from the spec: `Rectangle<float>::removeFromTop`; returns the
removed slice and the remainder (the source mutates in place). -/
def RectQ.removeFromTop (r : RectQ) (amt : ℚ) : RectQ × RectQ :=
  let m := min amt r.h
  (⟨r.x, r.y, r.w, m⟩, ⟨r.x, r.y + m, r.w, r.h - m⟩)

/-- Modelled from the spec: `Rectangle<float>::removeFromBottom`. -/
def RectQ.removeFromBottom (r : RectQ) (amt : ℚ) : RectQ × RectQ :=
  let m := min amt r.h
  (⟨r.x, r.y + r.h - m, r.w, m⟩, ⟨r.x, r.y, r.w, r.h - m⟩)

/-- Modelled from the spec: `Rectangle<float>::removeFromLeft`. -/
def RectQ.removeFromLeft (r : RectQ) (amt : ℚ) : RectQ × RectQ :=
  let m := min amt r.w
  (⟨r.x, r.y, m, r.h⟩, ⟨r.x + m, r.y, r.w - m, r.h⟩)

/-- Modelled from the spec: `Rectangle<float>::removeFromRight`. -/
def RectQ.removeFromRight (r : RectQ) (amt : ℚ) : RectQ × RectQ :=
  let m := min amt r.w
  (⟨r.x + r.w - m, r.y, m, r.h⟩, ⟨r.x, r.y, r.w - m, r.h⟩)

/-- Modelled from the spec: `Rectangle<float>::getRelativePoint`, the point
at the given fractions of the rectangle's width and height. -/
def RectQ.getRelativePoint (r : RectQ) (rx ry : ℚ) : ℚ × ℚ :=
  (r.x + r.w * rx, r.y + r.h * ry)

/-- Modelled from the spec: `Rectangle<float>::getSmallestIntegerContainer`,
the smallest integer rectangle containing the float rectangle. -/
def RectQ.getSmallestIntegerContainer (r : RectQ) : RectI :=
  ⟨⌊r.x⌋, ⌊r.y⌋, ⌈r.x + r.w⌉ - ⌊r.x⌋, ⌈r.y + r.h⌉ - ⌊r.y⌋⟩

/-- Half-open membership of a point in a float rectangle, the standard
formalisation of an exact pixel tiling (each boundary belongs to exactly
one side). -/
def RectQ.memP (r : RectQ) (px py : ℚ) : Prop :=
  r.x ≤ px ∧ px < r.x + r.w ∧ r.y ≤ py ∧ py < r.y + r.h

/-- Modelled from the spec: a colour, an opaque RGB payload together with
an alpha value; only the alpha arithmetic matters to the shadow code. -/
structure Colour where
  rgb : ℕ
  alpha : ℚ
deriving DecidableEq

/-- Modelled from the spec: `Colour::withAlpha`. -/
def Colour.withAlpha (c : Colour) (a : ℚ) : Colour := { c with alpha := a }

/-- Modelled from the spec: `Colour::withMultipliedAlpha`. -/
def Colour.withMultipliedAlpha (c : Colour) (m : ℚ) : Colour :=
  { c with alpha := c.alpha * m }

/-- Modelled from the spec: the `Path` collaborator, a vector outline with
a bounds query and a pixel-coverage test used when it is filled. -/
structure Path where
  bounds : RectQ
  covers : ℤ → ℤ → Bool

/-- The `Path::getBounds` query. -/
def Path.getBounds (p : Path) : RectQ := p.bounds

/-- Modelled from the spec: a two-point colour gradient descriptor with
linear/radial mode and a list of colour stops (position, colour). -/
structure ColourGradient where
  point1 : ℚ × ℚ
  point2 : ℚ × ℚ
  isRadial : Bool
  stops : List (ℚ × Colour)
deriving DecidableEq

/-- Sorted insertion of a colour stop, keeping stops ordered by position. -/
def insertStop (pos : ℚ) (c : Colour) : List (ℚ × Colour) → List (ℚ × Colour)
  | [] => [(pos, c)]
  | s :: rest => if pos < s.1 then (pos, c) :: s :: rest else s :: insertStop pos c rest

/-- Modelled from the spec: `ColourGradient::addColour`, adding a stop at a
proportion along the gradient. -/
def ColourGradient.addColour (cg : ColourGradient) (pos : ℚ) (c : Colour) : ColourGradient :=
  { cg with stops := insertStop pos c cg.stops }

/-- Pixel formats of the `Image` collaborator. -/
inductive PixelFormat
  | argb
  | rgb
  | singleChannel
deriving DecidableEq

/-- Modelled from the spec: an image handle, either invalid or referring to
a pixel buffer held in a shared store (copy-on-write). -/
structure Image where
  valid : Bool
  format : PixelFormat
  bufId : ℕ
deriving DecidableEq

/-- The `Image::isValid` query. -/
def Image.isValid (i : Image) : Bool := i.valid

/-- Modelled from the spec: the shared buffer store behind images.  `bufs`
maps buffer ids to pixel buffers, `refs` counts the owners of each id, and
ids below `next` are the ones ever allocated. -/
structure Store where
  bufs : ℕ → Buffer
  refs : ℕ → ℕ
  next : ℕ

/-- Allocation of a fresh buffer with a single owner. -/
def Store.alloc (st : Store) (b : Buffer) : ℕ × Store :=
  (st.next,
    { bufs := fun j => if j = st.next then b else st.bufs j,
      refs := fun j => if j = st.next then 1 else st.refs j,
      next := st.next + 1 })

/-- In-place replacement of the buffer stored under an id. -/
def Store.updateBuf (st : Store) (i : ℕ) (b : Buffer) : Store :=
  { st with bufs := fun j => if j = i then b else st.bufs j }

/-- Modelled from the spec: extraction of the alpha channel of a pixel when
converting to the single-channel format. -/
def alphaOfPixel : PixelFormat → ℕ → ℕ
  | PixelFormat.argb, v => v / 2 ^ 24 % 256
  | PixelFormat.rgb, _ => 255
  | PixelFormat.singleChannel, v => v % 256

/-- Modelled from the spec: pixel-format conversion of a whole buffer. -/
def convertBuffer (fmt : PixelFormat) (b : Buffer) : Buffer :=
  { b with data := fun q => alphaOfPixel fmt (b.data q) }

/-- Modelled from the spec: `Image::convertedToFormat`.  When the image
already has the requested format the same underlying buffer is shared (one
more owner); otherwise a fresh converted buffer is allocated. -/
def convertedToFormat (st : Store) (img : Image) (fmt : PixelFormat) : Image × Store :=
  if img.format = fmt then
    (img,
      { st with refs := fun j => if j = img.bufId then st.refs j + 1 else st.refs j })
  else
    let a := st.alloc (convertBuffer img.format (st.bufs img.bufId))
    (⟨img.valid, fmt, a.1⟩, a.2)

/-- Modelled from the spec: `Image::duplicateIfShared`, the copy-on-write
duplication: when the buffer has more than one owner, a private copy is
allocated before any in-place mutation. -/
def duplicateIfShared (st : Store) (img : Image) : Image × Store :=
  if 1 < st.refs img.bufId then
    let st1 : Store :=
      { st with refs := fun j => if j = img.bufId then st.refs j - 1 else st.refs j }
    let a := st1.alloc (st.bufs img.bufId)
    ({ img with bufId := a.1 }, a.2)
  else (img, st)

/-- Drawing operations issued to the `Graphics` context; the trace of these
operations is the observable behaviour of a draw call. -/
inductive GOp
  | setColour : Colour → GOp
  | setGradientFill : ColourGradient → GOp
  | fillRect : RectQ → GOp
  | drawImageAt : Image → ℤ → ℤ → Bool → GOp
  | setOpacity : ℚ → GOp
deriving DecidableEq

/-- Modelled from the spec: the drawing context, with its current clip
bounds and the list of drawing operations issued so far. -/
structure Graphics where
  clip : RectI
  ops : List GOp

/-- The `Graphics::getClipBounds` query. -/
def Graphics.getClipBounds (g : Graphics) : RectI := g.clip

/-- The `DropShadow` value object: colour, radius in pixels and offset. -/
structure DropShadow where
  colour : Colour
  radius : ℤ
  offset : PointI

/-- Translation of `DropShadow::drawForImage`: on a valid source image,
convert to single-channel, `duplicateIfShared`, blur in place with the
shadow radius, then set the shadow colour and draw the blurred image as an
alpha mask at the offset.  On an invalid image nothing happens. -/
def DropShadow.drawForImage (ds : DropShadow) (g : Graphics) (st : Store) (src : Image) :
    Graphics × Store :=
  if src.isValid then
    let conv := convertedToFormat st src PixelFormat.singleChannel
    let dup := duplicateIfShared conv.2 conv.1
    let st3 := Store.updateBuf dup.2 dup.1.bufId
      (blurImageBuffer ((dup.2).bufs dup.1.bufId) ds.radius.toNat)
    ({ g with ops := g.ops ++
        [GOp.setColour ds.colour, GOp.drawImageAt dup.1 ds.offset.x ds.offset.y true] }, st3)
  else (g, st)

/-- The scratch-area computation at the top of `DropShadow::drawForPath`:
the path's smallest integer bounding box, translated by the offset,
expanded by `radius + 1`, intersected with the clip bounds expanded by
`radius + 1`. -/
def DropShadow.drawForPathArea (ds : DropShadow) (g : Graphics) (path : Path) : RectI :=
  ((path.getBounds.getSmallestIntegerContainer.translate ds.offset).expanded (ds.radius + 1)).getIntersection
    (g.getClipBounds.expanded (ds.radius + 1))

/-- Modelled from the spec: rasterization of a path filled white on a
transparent single-channel scratch image of the given size, the path
translated by `(tx, ty)`. -/
def rasterizePath (path : Path) (tx ty : ℤ) (w hgt : ℕ) : Buffer :=
  { width := w, height := hgt, lineStride := w,
    data := fun q =>
      if q < w * hgt ∧ path.covers (((q % w : ℕ) : ℤ) - tx) (((q / w : ℕ) : ℤ) - ty) then 255
      else 0 }

/-- Translation of `DropShadow::drawForPath`: compute the scratch area; when
both of its dimensions exceed 2, rasterize the path into a fresh
single-channel image, blur it with the shadow radius and draw it tinted at
the area's origin; otherwise do nothing at all. -/
def DropShadow.drawForPath (ds : DropShadow) (g : Graphics) (st : Store) (path : Path) :
    Graphics × Store :=
  let area := ds.drawForPathArea g path
  if 2 < area.w ∧ 2 < area.h then
    let raster := rasterizePath path (ds.offset.x - area.x) (ds.offset.y - area.y)
      area.w.toNat area.h.toNat
    let a := st.alloc raster
    let st2 := Store.updateBuf a.2 a.1 (blurImageBuffer ((a.2).bufs a.1) ds.radius.toNat)
    ({ g with ops := g.ops ++
        [GOp.setColour ds.colour,
          GOp.drawImageAt ⟨true, PixelFormat.singleChannel, a.1⟩ area.x area.y true] }, st2)
  else (g, st)

/-- The loop head values of `for (float i = 0.05f; i < 1.0f; i += 0.1f)`,
modelled exactly over ℚ.  The float iterates stay within 1e-6 of the exact
values 0.05, 0.15, …, which are all at distance ≥ 0.05 from the bound 1.0,
so the float comparison and the exact comparison agree at every step.  The
fuel argument (any value ≥ 10) only serves termination. -/
def gradientSteps : ℚ → ℕ → List ℚ
  | _, 0 => []
  | i, fuel + 1 => if i < 1 then i :: gradientSteps (i + 1 / 10) fuel else []

/-- The falloff gradient built at the top of `DropShadow::drawForRectangle`:
a gradient from `colour` to `colour.withAlpha 0` whose constructor places
those two colours at proportions 0 and 1, to which the loop adds a stop
`colour.withMultipliedAlpha (i * i)` at proportion `1 - i` for every loop
value `i`. -/
def rectangleShadowGradient (c : Colour) : ColourGradient :=
  (gradientSteps (1 / 20) 32).foldl
    (fun cg i => cg.addColour (1 - i) (c.withMultipliedAlpha (i * i)))
    ⟨(0, 0), (0, 0), false, [(0, c), (1, c.withAlpha 0)]⟩

/-- Translation of `drawShadowSection`: position the gradient's two points
at the given relative points of the section, set the radial flag, then set
the gradient fill and fill the section's rectangle.  Returns the updated
context and gradient (the source mutates `cg` in place). -/
def drawShadowSection (g : Graphics) (cg : ColourGradient) (area : RectQ)
    (isCorner : Bool) (cx cy ex ey : ℚ) : Graphics × ColourGradient :=
  let cg2 := { cg with
    point1 := area.getRelativePoint cx cy,
    point2 := area.getRelativePoint ex ey,
    isRadial := isCorner }
  ({ g with ops := g.ops ++ [GOp.setGradientFill cg2, GOp.fillRect area] }, cg2)

/-- Translation of `DropShadow::drawForRectangle`: build the falloff
gradient, inset the target by `radius / 2` and translate by the offset,
expand by `radius + radius / 2`, split off the top and bottom strips and
their corners, the left and right strips, drawing each section with its
gradient, and finally fill the central rectangle with the flat colour. -/
def DropShadow.drawForRectangle (ds : DropShadow) (g : Graphics) (targetArea : RectI) :
    Graphics :=
  let cg := rectangleShadowGradient ds.colour
  let radiusInset : ℚ := (ds.radius : ℚ) / 2
  let expandedRadius : ℚ := (ds.radius : ℚ) + radiusInset
  let area := (targetArea.toFloat.reduced radiusInset).translateQ
    (ds.offset.x : ℚ) (ds.offset.y : ℚ)
  let r0 := area.expanded expandedRadius
  let t0 := r0.removeFromTop expandedRadius
  let b0 := t0.2.removeFromBottom expandedRadius
  let tl := t0.1.removeFromLeft expandedRadius
  let s1 := drawShadowSection g cg tl.1 true 1 1 0 1
  let tr := tl.2.removeFromRight expandedRadius
  let s2 := drawShadowSection s1.1 s1.2 tr.1 true 0 1 1 1
  let s3 := drawShadowSection s2.1 s2.2 tr.2 false 0 1 0 0
  let bl := b0.1.removeFromLeft expandedRadius
  let s4 := drawShadowSection s3.1 s3.2 bl.1 true 1 0 0 0
  let br := bl.2.removeFromRight expandedRadius
  let s5 := drawShadowSection s4.1 s4.2 br.1 true 0 0 1 0
  let s6 := drawShadowSection s5.1 s5.2 br.2 false 0 0 0 1
  let lf := b0.2.removeFromLeft expandedRadius
  let s7 := drawShadowSection s6.1 s6.2 lf.1 false 1 0 0 0
  let rt := lf.2.removeFromRight expandedRadius
  let s8 := drawShadowSection s7.1 s7.2 rt.1 false 0 0 1 0
  { s8.1 with ops := s8.1.ops ++ [GOp.setColour ds.colour, GOp.fillRect area] }

/-- The rectangle argument of a `fillRect` operation, if any. -/
def rectOfOp : GOp → Option RectQ
  | GOp.fillRect r => some r
  | _ => none

/-- The nine filled regions of `drawForRectangle`: the rectangles of all
`fillRect` operations it issues (eight gradient sections plus the central
flat fill), extracted from its trace on a fresh context. -/
def drawForRectangleRegions (ds : DropShadow) (targetArea : RectI) : List RectQ :=
  ((ds.drawForRectangle ⟨⟨0, 0, 0, 0⟩, []⟩ targetArea).ops).filterMap rectOfOp

/-- The full shadow extent of `drawForRectangle`: the target rectangle inset
by `radius / 2`, translated by the offset, then expanded by
`radius + radius / 2`. -/
def shadowExtent (ds : DropShadow) (targetArea : RectI) : RectQ :=
  ((targetArea.toFloat.reduced ((ds.radius : ℚ) / 2)).translateQ
    (ds.offset.x : ℚ) (ds.offset.y : ℚ)).expanded ((ds.radius : ℚ) + (ds.radius : ℚ) / 2)

/-- The `roundToInt` helper: rounding to the nearest integer. -/
def roundToInt (q : ℚ) : ℤ := round q

/-- The `DropShadowEffect` wrapper holding one `DropShadow`. -/
structure DropShadowEffect where
  shadow : DropShadow

/-- Translation of `DropShadowEffect::applyEffect`: scale the stored
shadow's radius and offset by `scaleFactor` (rounded to int), multiply its
colour's alpha by `alpha`, draw the shadow for the image, then set the
context opacity to `alpha` and draw the source image at (0, 0). -/
def DropShadowEffect.applyEffect (eff : DropShadowEffect) (img : Image) (g : Graphics)
    (st : Store) (scaleFactor alpha : ℚ) : Graphics × Store :=
  let s : DropShadow :=
    { colour := eff.shadow.colour.withMultipliedAlpha alpha,
      radius := roundToInt ((eff.shadow.radius : ℚ) * scaleFactor),
      offset := ⟨roundToInt ((eff.shadow.offset.x : ℚ) * scaleFactor),
        roundToInt ((eff.shadow.offset.y : ℚ) * scaleFactor)⟩ }
  let r := s.drawForImage g st img
  ({ r.1 with ops := r.1.ops ++ [GOp.setOpacity alpha, GOp.drawImageAt img 0 0 false] }, r.2)

/-- Modelled from the spec (claim C5's right-hand side): draw the stored
shadow for the image directly, then draw the unmodified source image at
(0, 0) at full opacity. -/
def directShadowThenImage (eff : DropShadowEffect) (img : Image) (g : Graphics)
    (st : Store) : Graphics × Store :=
  let r := eff.shadow.drawForImage g st img
  ({ r.1 with ops := r.1.ops ++ [GOp.setOpacity 1, GOp.drawImageAt img 0 0 false] }, r.2)

/-- Claim C7: with radius > 0, `drawForImage` on an invalid source image is
a no-op: the context trace and the buffer store are returned unchanged (no
scratch image, no blur, no drawing call). -/
theorem drawForImage_invalid_is_noop (ds : DropShadow) (g : Graphics) (st : Store)
    (src : Image) (hr : 0 < ds.radius) (hinv : src.isValid = false) :
    ds.drawForImage g st src = (g, st) := by
  unfold DropShadow.drawForImage
  rw [hinv]
  simp

/-- Store with no allocated buffers, used by concrete witnesses. -/
def emptyStore : Store :=
  ⟨fun _ => ⟨0, 0, 0, fun _ => 0⟩, fun _ => 0, 0⟩

/-- Witness for C7: a shadow of radius 3 and an invalid image. -/
theorem drawForImage_invalid_is_noop_witness :
    ((0 : ℤ) < 3 ∧ (Image.mk false PixelFormat.argb 0).isValid = false) ∧
      (DropShadow.mk ⟨0, 1⟩ 3 ⟨2, 2⟩).drawForImage ⟨⟨0, 0, 9, 9⟩, []⟩ emptyStore
        (Image.mk false PixelFormat.argb 0) = (⟨⟨0, 0, 9, 9⟩, []⟩, emptyStore) :=
  ⟨⟨by decide, rfl⟩,
    drawForImage_invalid_is_noop _ _ _ _ (by decide) rfl⟩

/-- Claim C6: with radius > 0, when the intersected scratch area of
`drawForPath` has width ≤ 2 or height ≤ 2, the call performs no
rasterization, no blur and no compositing: the context and the store are
returned untouched. -/
theorem drawForPath_degenerate_is_noop (ds : DropShadow) (g : Graphics) (st : Store)
    (path : Path) (hr : 0 < ds.radius)
    (hdeg : (ds.drawForPathArea g path).w ≤ 2 ∨ (ds.drawForPathArea g path).h ≤ 2) :
    ds.drawForPath g st path = (g, st) := by
  have hcond : ¬(2 < (ds.drawForPathArea g path).w ∧ 2 < (ds.drawForPathArea g path).h) := by
    omega
  simp only [DropShadow.drawForPath, if_neg hcond]

/-- Path used by the C6 witness: empty bounds, covering nothing. -/
def pathC6 : Path := ⟨⟨0, 0, 0, 0⟩, fun _ _ => false⟩

/-- Shadow used by the C6 witness. -/
def dsC6 : DropShadow := ⟨⟨0, 1⟩, 1, ⟨0, 0⟩⟩

/-- Context used by the C6 witness: clip far away from the path. -/
def gC6 : Graphics := ⟨⟨100, 100, 5, 5⟩, []⟩

/-- The C6 witness's scratch area is the zero rectangle: the clip is
disjoint from the path's neighbourhood. -/
theorem areaC6_eq : dsC6.drawForPathArea gC6 pathC6 = ⟨0, 0, 0, 0⟩ := by
  simp [dsC6, gC6, pathC6, DropShadow.drawForPathArea, Path.getBounds,
    RectQ.getSmallestIntegerContainer, RectI.translate, RectI.expanded,
    RectI.getIntersection, Graphics.getClipBounds]

/-- Witness for C6: the area degenerates to the zero rectangle because the
clip is disjoint from the path's neighbourhood. -/
theorem drawForPath_degenerate_is_noop_witness :
    ((0 : ℤ) < dsC6.radius ∧
      ((dsC6.drawForPathArea gC6 pathC6).w ≤ 2 ∨ (dsC6.drawForPathArea gC6 pathC6).h ≤ 2)) ∧
      dsC6.drawForPath gC6 emptyStore pathC6 = (gC6, emptyStore) :=
  ⟨⟨by decide, by rw [areaC6_eq]; decide⟩,
    drawForPath_degenerate_is_noop _ _ _ _ (by decide) (by rw [areaC6_eq]; decide)⟩

/-- Claim C5: `applyEffect` with `scaleFactor = 1` and `alpha = 1` issues
exactly the operations of drawing the stored shadow for the image directly
and then drawing the unmodified source image at (0, 0) at full opacity. -/
theorem applyEffect_unit_scale_is_direct (eff : DropShadowEffect) (img : Image)
    (g : Graphics) (st : Store) (hv : img.isValid = true) :
    eff.applyEffect img g st 1 1 = directShadowThenImage eff img g st := by
  unfold DropShadowEffect.applyEffect directShadowThenImage
  have hc : eff.shadow.colour.withMultipliedAlpha 1 = eff.shadow.colour := by
    unfold Colour.withMultipliedAlpha
    simp
  have hrad : roundToInt ((eff.shadow.radius : ℚ) * 1) = eff.shadow.radius := by
    unfold roundToInt
    rw [mul_one]
    exact round_intCast _
  have hox : roundToInt ((eff.shadow.offset.x : ℚ) * 1) = eff.shadow.offset.x := by
    unfold roundToInt
    rw [mul_one]
    exact round_intCast _
  have hoy : roundToInt ((eff.shadow.offset.y : ℚ) * 1) = eff.shadow.offset.y := by
    unfold roundToInt
    rw [mul_one]
    exact round_intCast _
  rw [hc, hrad, hox, hoy]

/-- Witness for C5 at a concrete effect, image, context and store. -/
theorem applyEffect_unit_scale_is_direct_witness :
    (Image.mk true PixelFormat.argb 0).isValid = true ∧
      (DropShadowEffect.mk (DropShadow.mk ⟨7, 1⟩ 2 ⟨1, -1⟩)).applyEffect
          (Image.mk true PixelFormat.argb 0) ⟨⟨0, 0, 20, 20⟩, []⟩ emptyStore 1 1
        = directShadowThenImage (DropShadowEffect.mk (DropShadow.mk ⟨7, 1⟩ 2 ⟨1, -1⟩))
            (Image.mk true PixelFormat.argb 0) ⟨⟨0, 0, 20, 20⟩, []⟩ emptyStore :=
  ⟨rfl, applyEffect_unit_scale_is_direct _ _ _ _ rfl⟩

/-- Claim C8: `drawForImage` never mutates the caller's image.  It converts
to single-channel form and calls `duplicateIfShared` before the in-place
blur, so the source image's pixel buffer is unchanged in the store after
the call, even when the conversion shared the source's buffer.  The
well-formedness hypotheses say the source's buffer id was allocated and the
source itself owns one reference to it. -/
theorem drawForImage_source_buffer_unchanged (ds : DropShadow) (g : Graphics) (st : Store)
    (src : Image) (hv : src.isValid = true) (hid : src.bufId < st.next)
    (href : 1 ≤ st.refs src.bufId) :
    ((ds.drawForImage g st src).2).bufs src.bufId = st.bufs src.bufId := by
  unfold DropShadow.drawForImage
  rw [hv]
  by_cases hf : src.format = PixelFormat.singleChannel
  · have hconv : convertedToFormat st src PixelFormat.singleChannel =
        (src, { st with refs := fun j => if j = src.bufId then st.refs j + 1 else st.refs j }) := by
      unfold convertedToFormat
      rw [if_pos hf]
    rw [hconv]
    have h2 : 1 < st.refs src.bufId + 1 := by omega
    have h1 : src.bufId ≠ st.next := by omega
    simp [duplicateIfShared, Store.alloc, Store.updateBuf, h2, h1]
  · have hconv : convertedToFormat st src PixelFormat.singleChannel =
        (⟨src.valid, PixelFormat.singleChannel, st.next⟩,
          { bufs := fun j => if j = st.next
              then convertBuffer src.format (st.bufs src.bufId) else st.bufs j,
            refs := fun j => if j = st.next then 1 else st.refs j,
            next := st.next + 1 }) := by
      unfold convertedToFormat Store.alloc
      rw [if_neg hf]
    rw [hconv]
    have h1 : src.bufId ≠ st.next := by omega
    simp [duplicateIfShared, Store.alloc, Store.updateBuf, h1]

/-- Store used by the C8 witness: one allocated single-channel buffer with
one owner. -/
def stC8 : Store :=
  ⟨fun _ => ⟨4, 4, 4, fun _ => 7⟩, fun j => if j = 0 then 1 else 0, 1⟩

/-- Witness for C8: a valid single-channel source image sharing buffer 0 of
`stC8` (the sharing branch of `convertedToFormat` is taken). -/
theorem drawForImage_source_buffer_unchanged_witness :
    ((Image.mk true PixelFormat.singleChannel 0).isValid = true ∧
      (0 : ℕ) < stC8.next ∧ 1 ≤ stC8.refs 0) ∧
      (((DropShadow.mk ⟨0, 1⟩ 2 ⟨1, 1⟩).drawForImage ⟨⟨0, 0, 8, 8⟩, []⟩ stC8
          (Image.mk true PixelFormat.singleChannel 0)).2).bufs 0 = stC8.bufs 0 :=
  ⟨⟨rfl, by decide, by decide⟩,
    drawForImage_source_buffer_unchanged _ _ _ _ rfl (by decide) (by decide)⟩

/-- The scratch area exactly as claim C2 states it: the path's smallest
integer bounding box translated by the offset, expanded by `radius + 1` on
each side, and intersected with the context's current clip bounds (NOT
expanded). -/
def drawForPathAreaClaimC2 (ds : DropShadow) (g : Graphics) (path : Path) : RectI :=
  ((path.getBounds.getSmallestIntegerContainer.translate ds.offset).expanded (ds.radius + 1)).getIntersection
    g.getClipBounds

/-- An integer rectangle from its left, top, right and bottom edges. -/
def rectFromLTRB (l t r b : ℤ) : RectI := ⟨l, t, r - l, b - t⟩

/-- Modelled from the spec (amended claim C2): the scratch area in
left/top/right/bottom form — the path's integer bounding box edges, shifted
by the offset and pushed out by `radius + 1`, clamped against the clip
bounds likewise pushed out by `radius + 1`; the zero rectangle when the two
do not meet. -/
def amendedPathScratchArea (ds : DropShadow) (g : Graphics) (path : Path) : RectI :=
  let l1 := ⌊path.bounds.x⌋ + ds.offset.x - (ds.radius + 1)
  let t1 := ⌊path.bounds.y⌋ + ds.offset.y - (ds.radius + 1)
  let r1 := ⌈path.bounds.x + path.bounds.w⌉ + ds.offset.x + (ds.radius + 1)
  let b1 := ⌈path.bounds.y + path.bounds.h⌉ + ds.offset.y + (ds.radius + 1)
  let l2 := g.clip.x - (ds.radius + 1)
  let t2 := g.clip.y - (ds.radius + 1)
  let r2 := g.clip.x + g.clip.w + (ds.radius + 1)
  let b2 := g.clip.y + g.clip.h + (ds.radius + 1)
  if max l1 l2 ≤ min r1 r2 ∧ max t1 t2 ≤ min b1 b2 then
    rectFromLTRB (max l1 l2) (max t1 t2) (min r1 r2) (min b1 b2)
  else ⟨0, 0, 0, 0⟩

set_option maxHeartbeats 1600000 in
/-- Amended claim C2: the scratch area of `drawForPath` is the path's
smallest integer bounding box translated by the offset, expanded by
`radius + 1` on each side, intersected with the clip bounds expanded by
`radius + 1` on each side. -/
theorem drawForPathArea_amended (ds : DropShadow) (g : Graphics) (path : Path)
    (hr : 0 < ds.radius) :
    ds.drawForPathArea g path = amendedPathScratchArea ds g path := by
  simp only [DropShadow.drawForPathArea, amendedPathScratchArea, RectI.getIntersection,
    RectQ.getSmallestIntegerContainer, RectI.translate, RectI.expanded, rectFromLTRB,
    Path.getBounds, Graphics.getClipBounds, min_def, max_def]
  split_ifs <;> simp only [RectI.mk.injEq, true_and, and_true] <;> omega

/-- Shadow used in the C2 counterexample. -/
def dsC2 : DropShadow := ⟨⟨0, 1⟩, 1, ⟨0, 0⟩⟩

/-- Path used in the C2 counterexample: bounds 10×10 at the origin. -/
def pathC2 : Path := ⟨⟨0, 0, 10, 10⟩, fun _ _ => false⟩

/-- Context used in the C2 counterexample: clip equal to the path bounds. -/
def gC2 : Graphics := ⟨⟨0, 0, 10, 10⟩, []⟩

/-- The area the code computes in the C2 counterexample. -/
theorem areaC2_code : dsC2.drawForPathArea gC2 pathC2 = ⟨-2, -2, 14, 14⟩ := by
  norm_num [dsC2, gC2, pathC2, DropShadow.drawForPathArea, Path.getBounds,
    RectQ.getSmallestIntegerContainer, RectI.translate, RectI.expanded,
    RectI.getIntersection, Graphics.getClipBounds]

/-- The area claim C2 describes in the same situation. -/
theorem areaC2_claimed : drawForPathAreaClaimC2 dsC2 gC2 pathC2 = ⟨0, 0, 10, 10⟩ := by
  norm_num [dsC2, gC2, pathC2, drawForPathAreaClaimC2, Path.getBounds,
    RectQ.getSmallestIntegerContainer, RectI.translate, RectI.expanded,
    RectI.getIntersection, Graphics.getClipBounds]

/-- Counterexample to claim C2 as stated: at radius 1, offset (0,0), a
10×10 path box and a 10×10 clip, the code's area (clip also expanded by
radius+1) differs from the claimed area (clip not expanded). -/
theorem drawForPathArea_claimC2_counterexample :
    dsC2.drawForPathArea gC2 pathC2 ≠ drawForPathAreaClaimC2 dsC2 gC2 pathC2 := by
  rw [areaC2_code, areaC2_claimed]
  decide

/-- Witness for the amended C2 at the counterexample's concrete input. -/
theorem drawForPathArea_amended_witness :
    (0 : ℤ) < dsC2.radius ∧
      dsC2.drawForPathArea gC2 pathC2 = amendedPathScratchArea dsC2 gC2 pathC2 :=
  ⟨by decide, drawForPathArea_amended _ _ _ (by decide)⟩

/-- Claim C9: for buffers with width > 2, height > 2 and lineStride ≥ width,
the blur stays inside the buffer: cells at or beyond `lineStride * height`
are never written; the result below that bound depends only on cells below
it (all reads are in bounds); every averaged triplet of in-range byte
values fits in a byte, so the narrowing cast `trip` never truncates; and
`drawForImage` performs no dimension check before blurring — on any valid
image, whatever its dimensions, it issues the blurred-image drawing
operations unconditionally. -/
theorem blur_memory_safety (mem : ℕ → ℕ) (w hgt ls reps : ℕ)
    (h2w : 2 < w) (h2h : 2 < hgt) (hwls : w ≤ ls) :
    (∀ q, ls * hgt ≤ q → blurSingleChannelImage mem w hgt ls reps q = mem q) ∧
    (∀ mem2, (∀ q, q < ls * hgt → mem q = mem2 q) → ∀ q, q < ls * hgt →
      blurSingleChannelImage mem w hgt ls reps q
        = blurSingleChannelImage mem2 w hgt ls reps q) ∧
    (∀ a b c, a ≤ 255 → b ≤ 255 → c ≤ 255 →
      (a + b + c + 1) / 3 ≤ 255 ∧ trip a b c = (a + b + c + 1) / 3) ∧
    (∀ (ds : DropShadow) (g : Graphics) (st : Store) (src : Image), src.isValid = true →
      ∃ simg, ((ds.drawForImage g st src).1).ops =
        g.ops ++ [GOp.setColour ds.colour, GOp.drawImageAt simg ds.offset.x ds.offset.y true]) := by
  refine ⟨?_, ?_, ?_, ?_⟩
  · intro q hq
    exact blurSingleChannelImage_frame _ _ _ _ _ _ (by omega) (by omega) hwls hq
  · intro mem2 hag q hq
    exact blurSingleChannelImage_agree _ _ _ _ _ _ (by omega) (by omega) hwls hag q hq
  · intro a b c ha hb hc
    constructor
    · omega
    · unfold trip
      omega
  · intro ds g st src hv
    unfold DropShadow.drawForImage
    rw [hv, if_pos rfl]
    exact ⟨_, rfl⟩

/-- Witness for C9 at a 3×3 buffer of stride 3 holding zeros, two blur
repetitions. -/
theorem blur_memory_safety_witness :
    (2 < 3 ∧ 3 ≤ 3) ∧
      ((∀ q, 3 * 3 ≤ q → blurSingleChannelImage (fun _ => 0) 3 3 3 2 q = (fun _ : ℕ => 0) q) ∧
      (∀ mem2, (∀ q, q < 3 * 3 → (fun _ : ℕ => 0) q = mem2 q) → ∀ q, q < 3 * 3 →
        blurSingleChannelImage (fun _ => 0) 3 3 3 2 q
          = blurSingleChannelImage mem2 3 3 3 2 q) ∧
      (∀ a b c, a ≤ 255 → b ≤ 255 → c ≤ 255 →
        (a + b + c + 1) / 3 ≤ 255 ∧ trip a b c = (a + b + c + 1) / 3) ∧
      (∀ (ds : DropShadow) (g : Graphics) (st : Store) (src : Image), src.isValid = true →
        ∃ simg, ((ds.drawForImage g st src).1).ops =
          g.ops ++ [GOp.setColour ds.colour, GOp.drawImageAt simg ds.offset.x ds.offset.y true])) :=
  ⟨⟨by omega, by omega⟩, blur_memory_safety (fun _ => 0) 3 3 3 2 (by omega) (by omega) (by omega)⟩

/-- Counterexample to claim C4 as stated: the gradient built by
`drawForRectangle` has twelve colour stops (the constructor's two plus ten
added by the loop), not eleven. -/
theorem rectangleShadowGradient_not_eleven_stops :
    ((rectangleShadowGradient (Colour.mk 0 1)).stops).length ≠ 11 := by
  have h : ((rectangleShadowGradient (Colour.mk 0 1)).stops).length = 12 := by
    norm_num [rectangleShadowGradient, gradientSteps, ColourGradient.addColour, insertStop]
  omega

set_option maxHeartbeats 1600000 in
/-- Amended claim C4: the alpha-falloff gradient built by `drawForRectangle`
is sampled at exactly twelve colour stops — `colour` at proportion 0 and
fully transparent at proportion 1 from the constructor, plus the ten
intermediate stops `colour.withMultipliedAlpha (i * i)` at proportion
`1 - i` for `i` stepping 0.05 → 0.95 in increments of 0.1. -/
theorem rectangleShadowGradient_twelve_stops (c : Colour) :
    (rectangleShadowGradient c).stops =
      [(0, c),
        (1 / 20, c.withMultipliedAlpha (19 / 20 * (19 / 20))),
        (3 / 20, c.withMultipliedAlpha (17 / 20 * (17 / 20))),
        (5 / 20, c.withMultipliedAlpha (15 / 20 * (15 / 20))),
        (7 / 20, c.withMultipliedAlpha (13 / 20 * (13 / 20))),
        (9 / 20, c.withMultipliedAlpha (11 / 20 * (11 / 20))),
        (11 / 20, c.withMultipliedAlpha (9 / 20 * (9 / 20))),
        (13 / 20, c.withMultipliedAlpha (7 / 20 * (7 / 20))),
        (15 / 20, c.withMultipliedAlpha (5 / 20 * (5 / 20))),
        (17 / 20, c.withMultipliedAlpha (3 / 20 * (3 / 20))),
        (19 / 20, c.withMultipliedAlpha (1 / 20 * (1 / 20))),
        (1, c.withAlpha 0)] ∧
    ((rectangleShadowGradient c).stops).length = 12 := by
  have h : (rectangleShadowGradient c).stops =
      [(0, c),
        (1 / 20, c.withMultipliedAlpha (19 / 20 * (19 / 20))),
        (3 / 20, c.withMultipliedAlpha (17 / 20 * (17 / 20))),
        (5 / 20, c.withMultipliedAlpha (15 / 20 * (15 / 20))),
        (7 / 20, c.withMultipliedAlpha (13 / 20 * (13 / 20))),
        (9 / 20, c.withMultipliedAlpha (11 / 20 * (11 / 20))),
        (11 / 20, c.withMultipliedAlpha (9 / 20 * (9 / 20))),
        (13 / 20, c.withMultipliedAlpha (7 / 20 * (7 / 20))),
        (15 / 20, c.withMultipliedAlpha (5 / 20 * (5 / 20))),
        (17 / 20, c.withMultipliedAlpha (3 / 20 * (3 / 20))),
        (19 / 20, c.withMultipliedAlpha (1 / 20 * (1 / 20))),
        (1, c.withAlpha 0)] := by
    norm_num [rectangleShadowGradient, gradientSteps, ColourGradient.addColour, insertStop,
      Colour.withMultipliedAlpha, Colour.withAlpha]
  exact ⟨h, by rw [h]; rfl⟩

/-- The geometric part of `drawForRectangle`: the nine rectangles produced
by the removeFrom chain, in drawing order (four corners and two horizontal
strips off the top and bottom bands, the left and right strips, then the
central rectangle). -/
def shadowSections (a : RectQ) (e : ℚ) : List RectQ :=
  let r0 := a.expanded e
  let t0 := r0.removeFromTop e
  let b0 := t0.2.removeFromBottom e
  let tl := t0.1.removeFromLeft e
  let tr := tl.2.removeFromRight e
  let bl := b0.1.removeFromLeft e
  let br := bl.2.removeFromRight e
  let lf := b0.2.removeFromLeft e
  let rt := lf.2.removeFromRight e
  [tl.1, tr.1, tr.2, bl.1, br.1, br.2, lf.1, rt.1, a]

/-- The solid shadow core of `drawForRectangle`: target inset by
`radius / 2` and translated by the offset. -/
def shadowArea (ds : DropShadow) (targetArea : RectI) : RectQ :=
  (targetArea.toFloat.reduced ((ds.radius : ℚ) / 2)).translateQ
    (ds.offset.x : ℚ) (ds.offset.y : ℚ)

/-- The expansion amount of `drawForRectangle`: `radius + radius / 2`. -/
def expandedRadiusOf (ds : DropShadow) : ℚ := (ds.radius : ℚ) + (ds.radius : ℚ) / 2

theorem drawForRectangleRegions_eq_sections (ds : DropShadow) (targetArea : RectI) :
    drawForRectangleRegions ds targetArea
      = shadowSections (shadowArea ds targetArea) (expandedRadiusOf ds) := rfl

theorem shadowExtent_eq (ds : DropShadow) (targetArea : RectI) :
    shadowExtent ds targetArea
      = (shadowArea ds targetArea).expanded (expandedRadiusOf ds) := rfl

theorem shadowSections_explicit (ax ay aw ah e : ℚ) (he : 0 < e) (haw : 0 < aw)
    (hah : 0 < ah) :
    shadowSections ⟨ax, ay, aw, ah⟩ e =
      [⟨ax - e, ay - e, e, e⟩,
        ⟨ax + aw, ay - e, e, e⟩,
        ⟨ax, ay - e, aw, e⟩,
        ⟨ax - e, ay + ah, e, e⟩,
        ⟨ax + aw, ay + ah, e, e⟩,
        ⟨ax, ay + ah, aw, e⟩,
        ⟨ax - e, ay, e, ah⟩,
        ⟨ax + aw, ay, e, ah⟩,
        ⟨ax, ay, aw, ah⟩] := by
  simp only [shadowSections, RectQ.expanded, RectQ.removeFromTop, RectQ.removeFromBottom,
    RectQ.removeFromLeft, RectQ.removeFromRight]
  rw [show min e (ah + 2 * e) = e from min_eq_left (by linarith)]
  rw [show ah + 2 * e - e = ah + e from by ring]
  rw [show min e (ah + e) = e from min_eq_left (by linarith)]
  rw [show min e (aw + 2 * e) = e from min_eq_left (by linarith)]
  rw [show aw + 2 * e - e = aw + e from by ring]
  rw [show min e (aw + e) = e from min_eq_left (by linarith)]
  simp only [List.cons.injEq, RectQ.mk.injEq, and_true]
  repeat' apply And.intro
  all_goals ring_nf

theorem memP_mk (x y w h px py : ℚ) :
    RectQ.memP ⟨x, y, w, h⟩ px py ↔ (x ≤ px ∧ px < x + w ∧ y ≤ py ∧ py < y + h) := Iff.rfl

theorem shadowSections_tile (ax ay aw ah e : ℚ) (he : 0 < e) (haw : 0 < aw)
    (hah : 0 < ah) :
    (shadowSections ⟨ax, ay, aw, ah⟩ e).length = 9 ∧
    (∀ px py, ((⟨ax, ay, aw, ah⟩ : RectQ).expanded e).memP px py ↔
      ∃ rr ∈ shadowSections ⟨ax, ay, aw, ah⟩ e, RectQ.memP rr px py) ∧
    (shadowSections ⟨ax, ay, aw, ah⟩ e).Pairwise
      (fun r1 r2 => ∀ px py, ¬(r1.memP px py ∧ r2.memP px py)) := by
  rw [shadowSections_explicit ax ay aw ah e he haw hah]
  refine ⟨rfl, ?_, ?_⟩
  · intro px py
    constructor
    · intro hm
      simp only [RectQ.expanded, memP_mk] at hm
      obtain ⟨h1, h2, h3, h4⟩ := hm
      rcases lt_or_le px ax with hx1 | hx1
      · rcases lt_or_le py ay with hy1 | hy1
        · refine ⟨⟨ax - e, ay - e, e, e⟩, by simp, ?_⟩
          rw [memP_mk]
          exact ⟨by linarith, by linarith, by linarith, by linarith⟩
        · rcases lt_or_le py (ay + ah) with hy2 | hy2
          · refine ⟨⟨ax - e, ay, e, ah⟩, by simp, ?_⟩
            rw [memP_mk]
            exact ⟨by linarith, by linarith, by linarith, by linarith⟩
          · refine ⟨⟨ax - e, ay + ah, e, e⟩, by simp, ?_⟩
            rw [memP_mk]
            exact ⟨by linarith, by linarith, by linarith, by linarith⟩
      · rcases lt_or_le px (ax + aw) with hx2 | hx2
        · rcases lt_or_le py ay with hy1 | hy1
          · refine ⟨⟨ax, ay - e, aw, e⟩, by simp, ?_⟩
            rw [memP_mk]
            exact ⟨by linarith, by linarith, by linarith, by linarith⟩
          · rcases lt_or_le py (ay + ah) with hy2 | hy2
            · refine ⟨⟨ax, ay, aw, ah⟩, by simp, ?_⟩
              rw [memP_mk]
              exact ⟨by linarith, by linarith, by linarith, by linarith⟩
            · refine ⟨⟨ax, ay + ah, aw, e⟩, by simp, ?_⟩
              rw [memP_mk]
              exact ⟨by linarith, by linarith, by linarith, by linarith⟩
        · rcases lt_or_le py ay with hy1 | hy1
          · refine ⟨⟨ax + aw, ay - e, e, e⟩, by simp, ?_⟩
            rw [memP_mk]
            exact ⟨by linarith, by linarith, by linarith, by linarith⟩
          · rcases lt_or_le py (ay + ah) with hy2 | hy2
            · refine ⟨⟨ax + aw, ay, e, ah⟩, by simp, ?_⟩
              rw [memP_mk]
              exact ⟨by linarith, by linarith, by linarith, by linarith⟩
            · refine ⟨⟨ax + aw, ay + ah, e, e⟩, by simp, ?_⟩
              rw [memP_mk]
              exact ⟨by linarith, by linarith, by linarith, by linarith⟩
    · rintro ⟨rr, hmem, hP⟩
      simp only [List.mem_cons, List.not_mem_nil, or_false] at hmem
      simp only [RectQ.expanded, memP_mk]
      rcases hmem with rfl | rfl | rfl | rfl | rfl | rfl | rfl | rfl | rfl <;>
        · rw [memP_mk] at hP
          obtain ⟨h1, h2, h3, h4⟩ := hP
          exact ⟨by linarith, by linarith, by linarith, by linarith⟩
  · simp only [List.pairwise_cons, List.mem_cons, List.mem_singleton, List.mem_nil_iff,
      or_false, forall_eq_or_imp, forall_eq, false_implies, implies_true,
      List.Pairwise.nil, and_true, true_and]
    repeat' apply And.intro
    all_goals
      intro px py hcon
      simp only [memP_mk] at hcon
      obtain ⟨⟨a1, a2, a3, a4⟩, b1, b2, b3, b4⟩ := hcon
      linarith

/-- Claim C3: for radius ≥ 1 and a target rectangle whose width and height
both exceed twice the expanded radius `radius + radius / 2`, the nine
regions filled by `drawForRectangle` — four corner squares, four edge
strips and the central rectangle — exactly tile the inset-then-expanded
shadow rectangle: every point of the extent (half-open pixel semantics)
lies in some region, and no point lies in two distinct regions. -/
theorem drawForRectangle_regions_tile (ds : DropShadow) (targetArea : RectI)
    (hr : (1 : ℤ) ≤ ds.radius)
    (hw : 2 * expandedRadiusOf ds < (targetArea.w : ℚ))
    (hh : 2 * expandedRadiusOf ds < (targetArea.h : ℚ)) :
    (drawForRectangleRegions ds targetArea).length = 9 ∧
    (∀ px py, (shadowExtent ds targetArea).memP px py ↔
      ∃ rr ∈ drawForRectangleRegions ds targetArea, RectQ.memP rr px py) ∧
    (drawForRectangleRegions ds targetArea).Pairwise
      (fun r1 r2 => ∀ px py, ¬(r1.memP px py ∧ r2.memP px py)) := by
  have hr1 : (1 : ℚ) ≤ (ds.radius : ℚ) := by exact_mod_cast hr
  have he : 0 < expandedRadiusOf ds := by
    unfold expandedRadiusOf
    linarith
  have haw : 0 < (shadowArea ds targetArea).w := by
    simp only [shadowArea, RectQ.translateQ, RectQ.reduced, RectI.toFloat]
    unfold expandedRadiusOf at hw
    linarith
  have hah : 0 < (shadowArea ds targetArea).h := by
    simp only [shadowArea, RectQ.translateQ, RectQ.reduced, RectI.toFloat]
    unfold expandedRadiusOf at hh
    linarith
  obtain ⟨h1, h2, h3⟩ := shadowSections_tile (shadowArea ds targetArea).x
    (shadowArea ds targetArea).y (shadowArea ds targetArea).w (shadowArea ds targetArea).h
    (expandedRadiusOf ds) he haw hah
  refine ⟨?_, ?_, ?_⟩
  · rw [drawForRectangleRegions_eq_sections]
    exact h1
  · rw [shadowExtent_eq, drawForRectangleRegions_eq_sections]
    exact h2
  · rw [drawForRectangleRegions_eq_sections]
    exact h3

/-- Witness for C3 at radius 2, offset (1,1) and a 20×20 target. -/
theorem drawForRectangle_regions_tile_witness :
    ((1 : ℤ) ≤ (DropShadow.mk ⟨0, 1⟩ 2 ⟨1, 1⟩).radius ∧
      2 * expandedRadiusOf (DropShadow.mk ⟨0, 1⟩ 2 ⟨1, 1⟩) < ((RectI.mk 0 0 20 20).w : ℚ) ∧
      2 * expandedRadiusOf (DropShadow.mk ⟨0, 1⟩ 2 ⟨1, 1⟩) < ((RectI.mk 0 0 20 20).h : ℚ)) ∧
    ((drawForRectangleRegions (DropShadow.mk ⟨0, 1⟩ 2 ⟨1, 1⟩) (RectI.mk 0 0 20 20)).length = 9 ∧
    (∀ px py, (shadowExtent (DropShadow.mk ⟨0, 1⟩ 2 ⟨1, 1⟩) (RectI.mk 0 0 20 20)).memP px py ↔
      ∃ rr ∈ drawForRectangleRegions (DropShadow.mk ⟨0, 1⟩ 2 ⟨1, 1⟩) (RectI.mk 0 0 20 20),
        RectQ.memP rr px py) ∧
    (drawForRectangleRegions (DropShadow.mk ⟨0, 1⟩ 2 ⟨1, 1⟩) (RectI.mk 0 0 20 20)).Pairwise
      (fun r1 r2 => ∀ px py, ¬(r1.memP px py ∧ r2.memP px py))) :=
  ⟨⟨by decide, by norm_num [expandedRadiusOf], by norm_num [expandedRadiusOf]⟩,
    drawForRectangle_regions_tile (DropShadow.mk ⟨0, 1⟩ 2 ⟨1, 1⟩) (RectI.mk 0 0 20 20)
      (by decide) (by norm_num [expandedRadiusOf]) (by norm_num [expandedRadiusOf])⟩
